import Mathlib

/-!
Verification of the timestamp-correlation and acceptance-classification
engine of the `newdaq` repository (single source file `gui.py`).

The embedding below translates the acceptance logic of the four handlers:

* `JkamH5FileHandler.process_file`  → `RefState.ingest` (the reference
  timeline: incremental average gap and per-event spacing classification);
* `BinFileHandler.rerun_acceptance` (and its verbatim duplicate
  `GageScopeH5FileHandler.rerun_acceptance_gage`) → `binShot` / `binResults`
  (the single-timestamp stream matcher, tolerance 0.2);
* `RedPitayaFileHandler.rerun_acceptance_rp` → `rpShot` / `rpResults`
  (the multi-sample neighbor-checked matcher, tolerance 0.3);
* the cumulative streak series built in all handlers → `cumulativeSeries`.

Timestamps are modelled as exact rationals (`ℚ`); the Python code uses
floats but every claim is about the exact arithmetic of the formulas.
-/

namespace NewDaq

/-- A reference shot: the stored creation time (`time_temp_dict[i]`,
equal to `jkam_creation_time_array[i]`) together with the spacing
classification `shots_dict[i]` computed at ingestion time. -/
structure RefShot where
  timestamp : ℚ
  spaceCorrect : Bool
  deriving DecidableEq

/-- The state of `JkamH5FileHandler` that the correlation logic reads:
the dense list of shots (index `i` holds `time_temp_dict[i]` and
`shots_dict[i]`), plus the tracked `start_time` and `avg_time_gap`. -/
structure RefState where
  shots : List RefShot
  startTime : ℚ
  avgTimeGap : ℚ
  deriving DecidableEq

/-- Fresh handler state: no shots, `start_time = None` (modelled as 0,
never read before being set), `avg_time_gap = 0`. -/
def RefState.init : RefState := ⟨[], 0, 0⟩

/-- Timestamp stored at reference index `j` (junk default 0 out of range,
matching uses that are always in range in the code). -/
def timeAt (st : RefState) (j : ℕ) : ℚ :=
  ((st.shots.get? j).map RefShot.timestamp).getD 0

/-- Embedding of `JkamH5FileHandler.process_file` (gui.py lines 49–74),
restricted to the state the correlation logic reads.  On the first shot
only `start_time` is set; on shot `i ≥ 1` the handler recomputes
`avg_time_gap = (curr_time - start_time) / shots_num` and classifies the
shot as space-correct unless
`|time_temp - prev_time_temp - avg_time_gap| > 0.2 * avg_time_gap`. -/
def RefState.ingest (st : RefState) (t : ℚ) : RefState :=
  if st.shots.length = 0 then
    { shots := st.shots ++ [⟨t, true⟩], startTime := t, avgTimeGap := st.avgTimeGap }
  else
    let gap := (t - st.startTime) / (st.shots.length : ℚ)
    let prev := timeAt st (st.shots.length - 1)
    let sc : Bool := decide (|t - prev - gap| ≤ (1/5) * gap)
    { shots := st.shots ++ [⟨t, sc⟩], startTime := st.startTime, avgTimeGap := gap }

/-- Minimum of a list of rationals, as computed by `np.min`; junk value 0
on the empty list (where `np.min` raises, outside the code's domain). -/
def listMin : List ℚ → ℚ
  | [] => 0
  | [x] => x
  | x :: y :: rest => min x (listMin (y :: rest))

/-- First index attaining the minimum, as computed by `np.argmin`. -/
def listArgmin (l : List ℚ) : ℕ := l.indexOf (listMin l)

/-- The cumulative streak builder used by every handler:
`new_val = cumulative_data[-1] + 1 if cumulative_data else 1` on an
accepted shot, `0` on a rejected one.  `prev` is the last value built so
far (0 when nothing has been built, making the first accepted value 1). -/
def cumFrom (prev : ℕ) : List Bool → List ℕ
  | [] => []
  | b :: rest =>
    let v := if b then prev + 1 else 0
    v :: cumFrom v rest

/-- The full cumulative series derived from an acceptance mask. -/
def cumulativeSeries (mask : List Bool) : List ℕ := cumFrom 0 mask

/-- Rejection/acceptance classification.  Modelled from the spec: the code
has no explicit cause enum — its branches print ad-hoc messages — and the
spec's §4.2/§7 taxonomy labels exactly those branches, which is how the
values below are assigned. -/
inductive Cause
  | accepted
  | noReference
  | spacingAnomaly
  | distanceExceeded
  deriving DecidableEq

/-- Per-shot outcome of a recompute: the mask entry, the match-list entry,
the branch classification, and whether the code printed a diagnostic
message for this shot (`diag`). -/
structure ShotResult where
  accepted : Bool
  matchIndex : Int
  cause : Cause
  diag : Bool
  deriving DecidableEq

/-- Embedding of the average-gap recompute at the top of
`BinFileHandler.rerun_acceptance` (gui.py lines 213–219): 0 when
`num_shots <= 1`, otherwise the full span
`fpga_creation_time_array[-1] - fpga_creation_time_array[0]` (last minus
first element) divided by `num_shots - 1`. -/
def binAvgGap (own : List ℚ) : ℚ :=
  if own.length ≤ 1 then 0
  else (((own.get? (own.length - 1)).getD 0) - ((own.get? 0).getD 0)) /
    ((own.length : ℚ) - 1)

/-- Embedding of the per-shot body of `BinFileHandler.rerun_acceptance`
(gui.py lines 235–268).  `gap` is the recomputed `avg_time_gap`.  The only
`print` in this loop is `"FPGA error at shot …"` in the rejection branch of
the nonzero-gap case, hence `diag` is true exactly there. -/
def binShot (own : List ℚ) (ref : RefState) (gap : ℚ) (s : ℕ) : ShotResult :=
  match ref.shots.get? s with
  | none => ⟨false, -1, Cause.noReference, false⟩
  | some rs =>
    if gap = 0 then
      if rs.spaceCorrect then ⟨true, (s : Int), Cause.accepted, false⟩
      else ⟨false, -1, Cause.spacingAnomaly, false⟩
    else
      let diffs := own.map fun t0 => |t0 - rs.timestamp|
      if listMin diffs ≤ (1/5) * gap ∧ rs.spaceCorrect = true then
        ⟨true, (listArgmin diffs : Int), Cause.accepted, false⟩
      else
        ⟨false, -1,
          if rs.spaceCorrect then Cause.distanceExceeded else Cause.spacingAnomaly,
          true⟩

/-- The full recompute of `BinFileHandler.rerun_acceptance`: one
`ShotResult` per shot index `0 .. num_shots - 1`. -/
def binResults (own : List ℚ) (ref : RefState) : List ShotResult :=
  (List.range own.length).map (binShot own ref (binAvgGap own))

/-- `mask_valid_data` after a recompute. -/
def binMask (own : List ℚ) (ref : RefState) : List Bool :=
  (binResults own ref).map ShotResult.accepted

/-- `jkam_fpga_matchlist` after a recompute. -/
def binMatchList (own : List ℚ) (ref : RefState) : List Int :=
  (binResults own ref).map ShotResult.matchIndex

/-- `cumulative_data` after a recompute. -/
def binCumulative (own : List ℚ) (ref : RefState) : List ℕ :=
  cumulativeSeries (binMask own ref)

/-- The mutable state of `BinFileHandler` touched by `rerun_acceptance`. -/
structure BinState where
  fpga_creation_time_array : List ℚ
  mask_valid_data : List Bool
  jkam_fpga_matchlist : List Int
  cumulative_data : List ℕ
  deriving DecidableEq

/-- Embedding of `BinFileHandler.rerun_acceptance` as a state transformer:
the three derived arrays are cleared and fully rebuilt from the own
timestamp history and the reference snapshot; the history itself is not
touched. -/
def BinState.rerun_acceptance (st : BinState) (ref : RefState) : BinState :=
  { st with
    mask_valid_data := binMask st.fpga_creation_time_array ref
    jkam_fpga_matchlist := binMatchList st.fpga_creation_time_array ref
    cumulative_data := binCumulative st.fpga_creation_time_array ref }

/-- Embedding of the per-shot body of
`RedPitayaFileHandler.rerun_acceptance_rp` (gui.py lines 550–598).
`rpTimes` holds one sample-timestamp array per shot (`rp_times_list`).
Both rejection branches print `"error at …"`, hence `diag = true` there;
the no-reference branch prints nothing. -/
def rpShot (rpTimes : List (List ℚ)) (ref : RefState) (s : ℕ) : ShotResult :=
  match ref.shots.get? s with
  | none => ⟨false, -1, Cause.noReference, false⟩
  | some rs =>
    let tt := rs.timestamp
    let gap := ref.avgTimeGap
    let total := ref.shots.length
    let sc1 : Bool :=
      if 0 < s ∧ s < total then
        if |tt - timeAt ref (s - 1) - gap| > (3/10) * gap then false else true
      else true
    let sc2 : Bool :=
      if s < total - 1 then
        if |(-tt) + timeAt ref (s + 1) - gap| > (3/10) * gap then false else sc1
      else sc1
    let samples := (rpTimes.get? s).getD []
    if rs.spaceCorrect && sc2 then
      let diffs := samples.map fun x => |x - tt|
      if listMin diffs ≤ (3/10) * gap then
        ⟨true, (listArgmin diffs : Int), Cause.accepted, false⟩
      else ⟨false, -1, Cause.distanceExceeded, true⟩
    else ⟨false, -1, Cause.spacingAnomaly, true⟩

/-- The full recompute of `RedPitayaFileHandler.rerun_acceptance_rp`. -/
def rpResults (rpTimes : List (List ℚ)) (ref : RefState) : List ShotResult :=
  (List.range rpTimes.length).map (rpShot rpTimes ref)

/-- `mask_valid_data_rp` after a recompute. -/
def rpMask (rpTimes : List (List ℚ)) (ref : RefState) : List Bool :=
  (rpResults rpTimes ref).map ShotResult.accepted

/-- One loop iteration of the `cumulative_data` build in
`RedPitayaFileHandler.rerun_acceptance_rp`.  When shot `s` has no JKAM
counterpart the loop body ends in `continue` (gui.py line 556), so nothing
is appended; otherwise the loop appends
`cumulative_data[-1] + 1 if cumulative_data else 1` on acceptance and `0`
on rejection (gui.py lines 600–605). -/
def rpCumStep (rpTimes : List (List ℚ)) (ref : RefState) (acc : List ℕ) (s : ℕ) :
    List ℕ :=
  match ref.shots.get? s with
  | none => acc
  | some _ =>
    acc ++ [if (rpShot rpTimes ref s).accepted then acc.getLastD 0 + 1 else 0]

/-- `cumulative_data` of the Red Pitaya handler after a recompute.  Unlike
the Bin/FPGA handler, shots without a JKAM counterpart contribute no entry
at all (the `continue` skips the append). -/
def rpCumulative (rpTimes : List (List ℚ)) (ref : RefState) : List ℕ :=
  (List.range rpTimes.length).foldl (rpCumStep rpTimes ref) []

/-! ### Lemmas about `listMin` and `listArgmin` -/

theorem listMin_mem : ∀ (l : List ℚ), l ≠ [] → listMin l ∈ l := by
  intro l
  induction l with
  | nil => intro h; exact absurd rfl h
  | cons x rest ih =>
    intro _
    cases rest with
    | nil => simp [listMin]
    | cons y r2 =>
      have hmem := ih (by simp)
      rw [listMin]
      rcases le_total x (listMin (y :: r2)) with hle | hle
      · rw [min_eq_left hle]
        exact List.mem_cons_self x _
      · rw [min_eq_right hle]
        exact List.mem_cons_of_mem x hmem

theorem listMin_le : ∀ (l : List ℚ), ∀ x ∈ l, listMin l ≤ x := by
  intro l
  induction l with
  | nil => intro x hx; simp at hx
  | cons a rest ih =>
    intro x hx
    cases rest with
    | nil =>
      have : x = a := by simpa using hx
      rw [this, listMin]
    | cons y r2 =>
      rw [listMin]
      rcases List.mem_cons.mp hx with h1 | h2
      · rw [h1]
        exact min_le_left _ _
      · exact le_trans (min_le_right _ _) (ih x h2)

theorem listArgmin_lt (l : List ℚ) (h : l ≠ []) : listArgmin l < l.length :=
  List.indexOf_lt_length.mpr (listMin_mem l h)

theorem get?_listArgmin (l : List ℚ) (h : l ≠ []) :
    l.get? (listArgmin l) = some (listMin l) :=
  List.indexOf_get? (listMin_mem l h)

/-! ### Basic lemmas about the embedded recomputes -/

theorem binResults_get? (own : List ℚ) (ref : RefState) (s : ℕ) (hs : s < own.length) :
    (binResults own ref).get? s = some (binShot own ref (binAvgGap own) s) := by
  rw [binResults, List.get?_map, List.get?_range hs]
  rfl

theorem binResults_length (own : List ℚ) (ref : RefState) :
    (binResults own ref).length = own.length := by
  simp [binResults]

theorem rpResults_get? (rpTimes : List (List ℚ)) (ref : RefState) (s : ℕ)
    (hs : s < rpTimes.length) :
    (rpResults rpTimes ref).get? s = some (rpShot rpTimes ref s) := by
  rw [rpResults, List.get?_map, List.get?_range hs]
  rfl

theorem rpResults_length (rpTimes : List (List ℚ)) (ref : RefState) :
    (rpResults rpTimes ref).length = rpTimes.length := by
  simp [rpResults]

theorem rpCumStep_foldl_length (rpTimes : List (List ℚ)) (ref : RefState)
    (l : List ℕ) (acc : List ℕ) :
    (l.foldl (rpCumStep rpTimes ref) acc).length =
      acc.length + (l.filter fun j => (ref.shots.get? j).isSome).length := by
  induction l generalizing acc with
  | nil => simp
  | cons j t ih =>
    simp only [List.foldl_cons, List.filter_cons]
    cases h : ref.shots.get? j with
    | none =>
      rw [show rpCumStep rpTimes ref acc j = acc from by
        simp only [rpCumStep]; rw [h]]
      simp [ih acc]
    | some rsj =>
      rw [show rpCumStep rpTimes ref acc j =
          acc ++ [if (rpShot rpTimes ref j).accepted then acc.getLastD 0 + 1 else 0]
        from by simp only [rpCumStep]; rw [h]]
      rw [ih]
      simp [List.length_append]
      omega

theorem rpCumulative_length (rpTimes : List (List ℚ)) (ref : RefState) :
    (rpCumulative rpTimes ref).length =
      ((List.range rpTimes.length).filter fun j => (ref.shots.get? j).isSome).length := by
  simp only [rpCumulative]
  simpa using rpCumStep_foldl_length rpTimes ref (List.range rpTimes.length) []

theorem binAvgGap_len (own : List ℚ) (h : binAvgGap own ≠ 0) : 2 ≤ own.length := by
  by_contra hlt
  push_neg at hlt
  have h1 : own.length ≤ 1 := by omega
  rw [binAvgGap, if_pos h1] at h
  exact h rfl

theorem binAvgGap_eq (own : List ℚ) (h : 2 ≤ own.length) :
    ∃ t0 tl, own.get? 0 = some t0 ∧ own.get? (own.length - 1) = some tl ∧
      binAvgGap own = (tl - t0) / ((own.length : ℚ) - 1) := by
  have h0 : 0 < own.length := by omega
  have h1 : own.length - 1 < own.length := by omega
  refine ⟨own.get ⟨0, h0⟩, own.get ⟨own.length - 1, h1⟩,
    List.get?_eq_get h0, List.get?_eq_get h1, ?_⟩
  rw [binAvgGap, if_neg (by omega), List.get?_eq_get h0, List.get?_eq_get h1]
  rfl

theorem ingest_shots_length (st : RefState) (t : ℚ) :
    (st.ingest t).shots.length = st.shots.length + 1 := by
  by_cases h : st.shots.length = 0 <;> simp [RefState.ingest, h]

theorem ingest_get?_lt (st : RefState) (t : ℚ) (i : ℕ) (h : i < st.shots.length) :
    (st.ingest t).shots.get? i = st.shots.get? i := by
  by_cases h0 : st.shots.length = 0
  · omega
  · simp [RefState.ingest, h0, List.getElem?_append_left h]

/-! ### Lemmas about the cumulative streak series -/

theorem cumFrom_length (p : ℕ) (m : List Bool) : (cumFrom p m).length = m.length := by
  induction m generalizing p with
  | nil => rfl
  | cons b rest ih => simp [cumFrom, ih]

theorem cumFrom_get?_zero (p : ℕ) (b : Bool) (rest : List Bool) :
    (cumFrom p (b :: rest)).get? 0 = some (if b then p + 1 else 0) := rfl

theorem cumFrom_get?_succ_cons (p : ℕ) (b : Bool) (rest : List Bool) (i : ℕ) :
    (cumFrom p (b :: rest)).get? (i + 1) = (cumFrom (if b then p + 1 else 0) rest).get? i := by
  simp [cumFrom]

theorem cumFrom_step (p : ℕ) (m : List Bool) (i : ℕ) (bi : Bool) (c : ℕ)
    (hm : m.get? (i + 1) = some bi) (hc : (cumFrom p m).get? i = some c) :
    (cumFrom p m).get? (i + 1) = some (if bi then c + 1 else 0) := by
  induction m generalizing p i with
  | nil => simp at hm
  | cons b rest ih =>
    cases i with
    | zero =>
      cases rest with
      | nil => simp at hm
      | cons b2 r2 =>
        rw [cumFrom_get?_zero] at hc
        rw [cumFrom_get?_succ_cons, cumFrom_get?_zero]
        simp only [List.get?] at hm
        have hb : b2 = bi := by
          cases hm
          rfl
        have hcv : (if b then p + 1 else 0) = c := by
          cases hc
          rfl
        rw [hb, hcv]
    | succ j =>
      rw [cumFrom_get?_succ_cons] at hc ⊢
      exact ih _ _ (by simpa using hm) hc

theorem cumFrom_false (p : ℕ) (m : List Bool) (i : ℕ)
    (hm : m.get? i = some false) : (cumFrom p m).get? i = some 0 := by
  induction m generalizing p i with
  | nil => simp at hm
  | cons b rest ih =>
    cases i with
    | zero =>
      have hb : b = false := by
        simp only [List.get?] at hm
        cases hm
        rfl
      rw [cumFrom_get?_zero, hb]
      rfl
    | succ j =>
      rw [cumFrom_get?_succ_cons]
      exact ih _ _ (by simpa using hm)

theorem cumFrom_pos (p : ℕ) (m : List Bool) (i : ℕ) (c : ℕ)
    (hc : (cumFrom p m).get? i = some c) (hpos : 0 < c) : m.get? i = some true := by
  induction m generalizing p i with
  | nil => simp [cumFrom] at hc
  | cons b rest ih =>
    cases i with
    | zero =>
      rw [cumFrom_get?_zero] at hc
      cases b with
      | false =>
        have : (0 : ℕ) = c := by
          cases hc
          rfl
        omega
      | true => rfl
    | succ j =>
      rw [cumFrom_get?_succ_cons] at hc
      simpa using ih _ _ hc

/-- C4.  The cumulative series derived from a boolean acceptance mask
satisfies: the first value is 1 on acceptance and 0 on rejection; each
later value is the previous value plus 1 exactly when the mask is true,
and 0 whenever the mask is false; and a positive cumulative value forces
the mask to be true at that index. -/
theorem cumulative_series_spec (m : List Bool) :
    (∀ b, m.get? 0 = some b → (cumulativeSeries m).get? 0 = some (if b then 1 else 0)) ∧
    (∀ i bi c, m.get? (i + 1) = some bi → (cumulativeSeries m).get? i = some c →
      (cumulativeSeries m).get? (i + 1) = some (if bi then c + 1 else 0)) ∧
    (∀ i, m.get? i = some false → (cumulativeSeries m).get? i = some 0) ∧
    (∀ i c, (cumulativeSeries m).get? i = some c → 0 < c → m.get? i = some true) := by
  refine ⟨?_, ?_, ?_, ?_⟩
  · intro b hb
    cases m with
    | nil => simp at hb
    | cons b0 rest =>
      have hb0 : b0 = b := by
        simp only [List.get?] at hb
        cases hb
        rfl
      rw [cumulativeSeries, cumFrom_get?_zero, hb0]
  · intro i bi c hm hc
    exact cumFrom_step 0 m i bi c hm hc
  · intro i hm
    exact cumFrom_false 0 m i hm
  · intro i c hc hpos
    exact cumFrom_pos 0 m i c hc hpos

/-- Witness for C4 at the concrete mask `[true, false, true]`, whose
cumulative series is `[1, 0, 1]`. -/
theorem cumulative_series_spec_witness :
    (cumulativeSeries [true, false, true]).get? 1 = some 0 ∧
    (cumulativeSeries [true, false, true]).get? 2 = some 1 ∧
    ([true, false, true].get? 2 = some true) :=
  ⟨(cumulative_series_spec [true, false, true]).2.2.1 1 rfl,
   (cumulative_series_spec [true, false, true]).2.1 1 true 0 rfl
     ((cumulative_series_spec [true, false, true]).2.2.1 1 rfl),
   (cumulative_series_spec [true, false, true]).2.2.2 2 1 rfl (by decide)⟩

/-! ### Unfolding lemmas for the per-shot recomputes -/

theorem binShot_none (own : List ℚ) (ref : RefState) (gap : ℚ) (s : ℕ)
    (href : ref.shots.get? s = none) :
    binShot own ref gap s = ⟨false, -1, Cause.noReference, false⟩ := by
  simp only [binShot]
  rw [href]

theorem binShot_some (own : List ℚ) (ref : RefState) (gap : ℚ) (s : ℕ) (rs : RefShot)
    (href : ref.shots.get? s = some rs) :
    binShot own ref gap s =
      if gap = 0 then
        if rs.spaceCorrect then ⟨true, (s : Int), Cause.accepted, false⟩
        else ⟨false, -1, Cause.spacingAnomaly, false⟩
      else
        if listMin (own.map fun t0 => |t0 - rs.timestamp|) ≤ (1/5) * gap ∧
            rs.spaceCorrect = true then
          ⟨true, (listArgmin (own.map fun t0 => |t0 - rs.timestamp|) : Int),
            Cause.accepted, false⟩
        else
          ⟨false, -1,
            if rs.spaceCorrect then Cause.distanceExceeded else Cause.spacingAnomaly,
            true⟩ := by
  simp only [binShot]
  rw [href]

theorem rpShot_none (rpTimes : List (List ℚ)) (ref : RefState) (s : ℕ)
    (href : ref.shots.get? s = none) :
    rpShot rpTimes ref s = ⟨false, -1, Cause.noReference, false⟩ := by
  simp only [rpShot]
  rw [href]

theorem rpShot_some (rpTimes : List (List ℚ)) (ref : RefState) (s : ℕ) (rs : RefShot)
    (href : ref.shots.get? s = some rs) :
    rpShot rpTimes ref s =
      if rs.spaceCorrect &&
          (if s < ref.shots.length - 1 then
            (if |(-rs.timestamp) + timeAt ref (s + 1) - ref.avgTimeGap| >
                (3/10) * ref.avgTimeGap then false
             else
              (if 0 < s ∧ s < ref.shots.length then
                (if |rs.timestamp - timeAt ref (s - 1) - ref.avgTimeGap| >
                    (3/10) * ref.avgTimeGap then false
                 else true)
               else true))
           else
            (if 0 < s ∧ s < ref.shots.length then
              (if |rs.timestamp - timeAt ref (s - 1) - ref.avgTimeGap| >
                  (3/10) * ref.avgTimeGap then false
               else true)
             else true)) then
        if listMin (((rpTimes.get? s).getD []).map fun x => |x - rs.timestamp|) ≤
            (3/10) * ref.avgTimeGap then
          ⟨true,
            (listArgmin (((rpTimes.get? s).getD []).map fun x => |x - rs.timestamp|) : Int),
            Cause.accepted, false⟩
        else ⟨false, -1, Cause.distanceExceeded, true⟩
      else ⟨false, -1, Cause.spacingAnomaly, true⟩ := by
  simp only [rpShot]
  rw [href]

/-- Truth condition of the mutate-to-false spacing-flag pattern used by the
neighbor checks. -/
theorem flag_iff (c : Prop) [Decidable c] (d tol : ℚ) (prev : Bool) :
    ((if c then (if d > tol then false else prev) else prev) = true) ↔
      ((c → d ≤ tol) ∧ prev = true) := by
  split_ifs with h1 h2
  · constructor
    · intro h
      simp at h
    · rintro ⟨hc, -⟩
      exact absurd (hc h1) (not_le.mpr h2)
  · constructor
    · intro h
      exact ⟨fun _ => not_lt.mp h2, h⟩
    · rintro ⟨-, hp⟩
      exact hp
  · constructor
    · intro h
      exact ⟨fun hc => absurd hc h1, h⟩
    · rintro ⟨-, hp⟩
      exact hp

/-! ### Claim theorems -/

/-- C2.  `ReferenceTimeline.ingest` classifies the first event (prior
count 0) as space-correct with average gap 0; an event arriving at prior
count `i ≥ 1` gets `avgGap = (timestamp - startTime) / i` and is
space-correct exactly when `|timestamp - prevTime - avgGap| ≤ 0.2 * avgGap`
where `prevTime` is the stored timestamp of event `i - 1`; the event is
appended and the count increments by one. -/
theorem ref_ingest_spec (st : RefState) (t : ℚ) (h : 1 ≤ st.shots.length) :
    ((RefState.init.ingest t).shots = [⟨t, true⟩] ∧
      (RefState.init.ingest t).avgTimeGap = 0) ∧
    (st.ingest t).avgTimeGap = (t - st.startTime) / (st.shots.length : ℚ) ∧
    (∃ sc : Bool,
      (st.ingest t).shots = st.shots ++ [⟨t, sc⟩] ∧
      (sc = true ↔
        |t - timeAt st (st.shots.length - 1) -
            (t - st.startTime) / (st.shots.length : ℚ)| ≤
          (1/5) * ((t - st.startTime) / (st.shots.length : ℚ)))) ∧
    (st.ingest t).shots.length = st.shots.length + 1 := by
  have hne : ¬ st.shots.length = 0 := by omega
  refine ⟨⟨rfl, rfl⟩, ?_, ?_, ingest_shots_length st t⟩
  · simp [RefState.ingest, hne]
  · refine ⟨decide (|t - timeAt st (st.shots.length - 1) -
        (t - st.startTime) / (st.shots.length : ℚ)| ≤
      (1/5) * ((t - st.startTime) / (st.shots.length : ℚ))), ?_, ?_⟩
    · simp [RefState.ingest, hne]
    · simp

/-- Witness for C2: ingesting `10` into a one-shot reference whose shot 0
arrived at time `0` recomputes the average gap and grows the count to 2. -/
theorem ref_ingest_spec_witness :
    ((⟨[⟨0, true⟩], 0, 0⟩ : RefState).ingest 10).avgTimeGap = 10 ∧
    ((⟨[⟨0, true⟩], 0, 0⟩ : RefState).ingest 10).shots.length = 2 := by
  have h := ref_ingest_spec ⟨[⟨0, true⟩], 0, 0⟩ 10 (by decide)
  exact ⟨by rw [h.2.1]; norm_num, h.2.2.2⟩

/-- C8.  Ingesting later reference events never changes the stored
timestamp or space-correct classification of any earlier reference shot:
after any sequence of further ingests, index `i` still holds exactly what
it held before. -/
theorem ref_nonretroactive (st : RefState) (ts : List ℚ) (i : ℕ)
    (h : i < st.shots.length) :
    (ts.foldl RefState.ingest st).shots.get? i = st.shots.get? i := by
  induction ts generalizing st with
  | nil => rfl
  | cons t rest ih =>
    have h' : i < (st.ingest t).shots.length := by
      rw [ingest_shots_length]
      omega
    simp only [List.foldl_cons]
    rw [ih (st.ingest t) h', ingest_get?_lt st t i h]

/-- Witness for C8: after two further ingests, shot 0 is unchanged. -/
theorem ref_nonretroactive_witness :
    (([1, 2] : List ℚ).foldl RefState.ingest ⟨[⟨0, true⟩], 0, 0⟩).shots.get? 0 =
      some ⟨0, true⟩ := by
  rw [ref_nonretroactive ⟨[⟨0, true⟩], 0, 0⟩ [1, 2] 0 (by decide)]
  rfl

/-- C9.  `StreamMatcher.recompute` is deterministic and idempotent: it
fully replaces the mask/match/cumulative arrays from the own history and
the reference snapshot alone, so recomputing a just-recomputed state
changes nothing, and the previous contents of the derived arrays are
irrelevant to the result. -/
theorem rerun_acceptance_idempotent (st : BinState) (ref : RefState) :
    (st.rerun_acceptance ref).rerun_acceptance ref = st.rerun_acceptance ref ∧
    ∀ m ml c,
      (BinState.mk st.fpga_creation_time_array m ml c).rerun_acceptance ref =
        st.rerun_acceptance ref := by
  exact ⟨rfl, fun m ml c => rfl⟩

/-- C5 counterexample.  The claim's "cumulative series value at s is 0"
fails for the multi-sample variant: at the concrete input of one Red
Pitaya shot and an empty reference, shot 0 is rejected with cause
`NoReference`, yet the cumulative list holds no value 0 at index 0 — the
`continue` in `rerun_acceptance_rp` (gui.py line 556) skips the cumulative
append entirely, leaving the list empty. -/
theorem rp_cumulative_missing_entry :
    (rpResults [[(7 : ℚ)]] RefState.init).get? 0 =
      some ⟨false, -1, Cause.noReference, false⟩ ∧
    ¬ ((rpCumulative [[(7 : ℚ)]] RefState.init).get? 0 = some 0) := by
  constructor
  · rw [rpResults_get? [[(7 : ℚ)]] RefState.init 0 (by decide),
      rpShot_none [[(7 : ℚ)]] RefState.init 0 rfl]
  · have he : rpCumulative [[(7 : ℚ)]] RefState.init = [] := rfl
    rw [he]
    simp

/-- C5 (amended).  A dependent-stream shot with no reference counterpart
is rejected with match index `-1` and cause `NoReference` — for any own
history and any sample contents.  The single-timestamp matcher's
cumulative series value at such a shot is 0; the multi-sample variant
instead appends no cumulative entry for it: its cumulative list has
exactly one entry per shot with a reference counterpart, so here it is
strictly shorter than the shot count. -/
theorem no_reference_reject (own : List ℚ) (rpTimes : List (List ℚ)) (ref : RefState)
    (s u : ℕ) (hs : s < own.length) (hu : u < rpTimes.length)
    (hrefs : ref.shots.get? s = none) (hrefu : ref.shots.get? u = none) :
    (binResults own ref).get? s = some ⟨false, -1, Cause.noReference, false⟩ ∧
    (binCumulative own ref).get? s = some 0 ∧
    (rpResults rpTimes ref).get? u = some ⟨false, -1, Cause.noReference, false⟩ ∧
    (rpCumulative rpTimes ref).length =
      ((List.range rpTimes.length).filter fun j => (ref.shots.get? j).isSome).length ∧
    (rpCumulative rpTimes ref).length < rpTimes.length := by
  have hb : (binResults own ref).get? s = some ⟨false, -1, Cause.noReference, false⟩ := by
    rw [binResults_get? own ref s hs]
    simp only [binShot]
    rw [hrefs]
  have hr : (rpResults rpTimes ref).get? u = some ⟨false, -1, Cause.noReference, false⟩ := by
    rw [rpResults_get? rpTimes ref u hu]
    simp only [rpShot]
    rw [hrefu]
  refine ⟨hb, ?_, hr, rpCumulative_length rpTimes ref, ?_⟩
  · simp only [binCumulative, cumulativeSeries]
    exact cumFrom_false 0 _ s (by simp only [binMask]; rw [List.get?_map, hb]; rfl)
  · rw [rpCumulative_length]
    have hmem : u ∈ List.range rpTimes.length := List.mem_range.mpr hu
    have hnp : ¬ ((ref.shots.get? u).isSome = true) := by
      rw [hrefu]
      simp
    calc ((List.range rpTimes.length).filter fun j => (ref.shots.get? j).isSome).length
        < (List.range rpTimes.length).length :=
          List.length_filter_lt_length_iff_exists.mpr ⟨u, hmem, hnp⟩
      _ = rpTimes.length := List.length_range _

/-- Witness for C5 (amended): one dependent shot, one multi-sample shot,
empty reference; the Red Pitaya cumulative list ends up empty. -/
theorem no_reference_reject_witness :
    (binResults [(7 : ℚ)] RefState.init).get? 0 =
      some ⟨false, -1, Cause.noReference, false⟩ ∧
    (binCumulative [(7 : ℚ)] RefState.init).get? 0 = some 0 ∧
    (rpResults [[(7 : ℚ)]] RefState.init).get? 0 =
      some ⟨false, -1, Cause.noReference, false⟩ ∧
    (rpCumulative [[(7 : ℚ)]] RefState.init).length =
      ((List.range [[(7 : ℚ)]].length).filter fun j =>
        (RefState.init.shots.get? j).isSome).length ∧
    (rpCumulative [[(7 : ℚ)]] RefState.init).length < [[(7 : ℚ)]].length :=
  no_reference_reject [(7 : ℚ)] [[(7 : ℚ)]] RefState.init 0 0
    (by decide) (by decide) rfl rfl

/-- C1.  For a single-timestamp dependent stream with nonzero recomputed
average gap, the gap is the full span divided by `n - 1`, and a shot with a
reference counterpart is accepted exactly when the minimum distance from
the entire own history to the reference time is within `0.2 * avgGap` and
the reference shot is space-correct; an accepted shot's match index is the
argmin over the whole own history (an index attaining the minimum
distance), and a rejected shot's match index is `-1`. -/
theorem stream_matcher_spec (own : List ℚ) (ref : RefState) (s : ℕ) (rs : RefShot)
    (hgap : binAvgGap own ≠ 0) (hs : s < own.length)
    (href : ref.shots.get? s = some rs) :
    (∃ t0 tl, own.get? 0 = some t0 ∧ own.get? (own.length - 1) = some tl ∧
        binAvgGap own = (tl - t0) / ((own.length : ℚ) - 1)) ∧
    ∀ r, (binResults own ref).get? s = some r →
      (r.accepted = true ↔
        listMin (own.map fun t0 => |t0 - rs.timestamp|) ≤ (1/5) * binAvgGap own ∧
          rs.spaceCorrect = true) ∧
      (r.accepted = true →
        r.matchIndex = (listArgmin (own.map fun t0 => |t0 - rs.timestamp|) : Int) ∧
        (own.map fun t0 => |t0 - rs.timestamp|).get?
            (listArgmin (own.map fun t0 => |t0 - rs.timestamp|)) =
          some (listMin (own.map fun t0 => |t0 - rs.timestamp|))) ∧
      (r.accepted = false → r.matchIndex = -1) := by
  refine ⟨binAvgGap_eq own (binAvgGap_len own hgap), ?_⟩
  intro r hr
  rw [binResults_get? own ref s hs, binShot_some own ref _ s rs href] at hr
  have hr' := (Option.some.inj hr).symm
  subst hr'
  have hown : own ≠ [] := by
    intro h0
    rw [h0] at hs
    simp at hs
  have hdiffs : (own.map fun t0 => |t0 - rs.timestamp|) ≠ [] := by
    simpa using hown
  rw [if_neg hgap]
  by_cases hacc : listMin (own.map fun t0 => |t0 - rs.timestamp|) ≤
      (1/5) * binAvgGap own ∧ rs.spaceCorrect = true
  · rw [if_pos hacc]
    exact ⟨⟨fun _ => hacc, fun _ => rfl⟩,
      fun _ => ⟨rfl, get?_listArgmin _ hdiffs⟩,
      fun hfalse => Bool.noConfusion hfalse⟩
  · rw [if_neg hacc]
    exact ⟨⟨fun hfalse => Bool.noConfusion hfalse, fun hR => absurd hR hacc⟩,
      fun hfalse => Bool.noConfusion hfalse, fun _ => rfl⟩

/-- Witness for C1: own history `[0, 10]` (average gap 10) against a
reference with shots at `0` and `10`, both space-correct; shot 0 is
accepted and matched at index 0. -/
theorem stream_matcher_spec_witness :
    (binShot [(0 : ℚ), 10] ⟨[⟨0, true⟩, ⟨10, true⟩], 0, 10⟩
        (binAvgGap [(0 : ℚ), 10]) 0).accepted = true := by
  have hgap : binAvgGap [(0 : ℚ), 10] = 10 := by norm_num [binAvgGap]
  have h := stream_matcher_spec [(0 : ℚ), 10] ⟨[⟨0, true⟩, ⟨10, true⟩], 0, 10⟩ 0 ⟨0, true⟩
    (by rw [hgap]; norm_num) (by decide) rfl
  refine (h.2 _ (binResults_get? [(0 : ℚ), 10] ⟨[⟨0, true⟩, ⟨10, true⟩], 0,
    10⟩ 0 (by decide))).1.mpr ⟨?_, rfl⟩
  rw [hgap]
  norm_num [listMin]

/-- C6.  When the recomputed average gap of a dependent stream is zero (in
particular for a single-event stream), a shot with a reference counterpart
is accepted exactly when the reference shot is space-correct, regardless of
any timestamp distance; the match index is the shot's own index on
acceptance and `-1` otherwise. -/
theorem zero_gap_accept (own : List ℚ) (ref : RefState) (s : ℕ) (rs : RefShot)
    (hgap : binAvgGap own = 0) (hs : s < own.length)
    (href : ref.shots.get? s = some rs) :
    ∀ r, (binResults own ref).get? s = some r →
      r.accepted = rs.spaceCorrect ∧
      r.matchIndex = (if rs.spaceCorrect = true then (s : Int) else -1) := by
  intro r hr
  rw [binResults_get? own ref s hs, binShot_some own ref _ s rs href] at hr
  have hr' := (Option.some.inj hr).symm
  subst hr'
  rw [if_pos hgap]
  by_cases hsc : rs.spaceCorrect = true
  · rw [if_pos hsc, if_pos hsc]
    exact ⟨hsc.symm, rfl⟩
  · rw [if_neg hsc, if_neg hsc]
    exact ⟨(Bool.not_eq_true _).mp hsc |>.symm, rfl⟩

/-- Witness for C6: a one-shot stream at time `5` whose reference
counterpart sits at time `100` (distance 95) is still accepted because the
gap is zero and the reference shot is space-correct. -/
theorem zero_gap_accept_witness :
    (binShot [(5 : ℚ)] ⟨[⟨100, true⟩], 100, 0⟩ (binAvgGap [(5 : ℚ)]) 0).accepted = true ∧
    (binShot [(5 : ℚ)] ⟨[⟨100, true⟩], 100, 0⟩ (binAvgGap [(5 : ℚ)]) 0).matchIndex = 0 := by
  have h := zero_gap_accept [(5 : ℚ)] ⟨[⟨100, true⟩], 100, 0⟩ 0 ⟨100, true⟩ rfl
    (by decide) rfl _
    (binResults_get? [(5 : ℚ)] ⟨[⟨100, true⟩], 100, 0⟩ 0 (by decide))
  exact ⟨h.1, by rw [h.2]; norm_num⟩

/-- C7 counterexample.  It is not the case that every rejected shot gets a
diagnostic: the concrete one-shot stream `[0]` against an empty reference
is rejected with cause `NoReference` and no diagnostic is printed
(the code's no-reference branch, gui.py lines 265–268, has no `print`). -/
theorem no_diag_for_noReference :
    ¬ (∀ (own : List ℚ) (ref : RefState) (s : ℕ) (r : ShotResult),
        (binResults own ref).get? s = some r → r.accepted = false → r.diag = true) := by
  intro h
  have h0 : (binResults [(0 : ℚ)] RefState.init).get? 0 =
      some ⟨false, -1, Cause.noReference, false⟩ := by
    rw [binResults_get? [(0 : ℚ)] RefState.init 0 (by decide)]
    rfl
  exact Bool.noConfusion
    (h [(0 : ℚ)] RefState.init 0 ⟨false, -1, Cause.noReference, false⟩ h0 rfl)

/-- C7 amended.  `StreamMatcher.recompute` prints a diagnostic exactly for
the shots whose reference counterpart exists and that are rejected in the
nonzero-average-gap branch; `NoReference` rejections and zero-gap
rejections emit no diagnostic. -/
theorem diag_iff_distance_branch_reject (own : List ℚ) (ref : RefState) (s : ℕ)
    (hs : s < own.length) :
    ∀ r, (binResults own ref).get? s = some r →
      (r.diag = true ↔
        (∃ rs, ref.shots.get? s = some rs) ∧ binAvgGap own ≠ 0 ∧
          r.accepted = false) := by
  intro r hr
  rw [binResults_get? own ref s hs] at hr
  cases hcase : ref.shots.get? s with
  | none =>
    rw [binShot_none own ref _ s hcase] at hr
    have hr' := (Option.some.inj hr).symm
    subst hr'
    exact ⟨fun hfalse => Bool.noConfusion hfalse,
      fun ⟨⟨rs, hrs⟩, _, _⟩ => Option.noConfusion hrs⟩
  | some rs =>
    rw [binShot_some own ref _ s rs hcase] at hr
    have hr' := (Option.some.inj hr).symm
    subst hr'
    by_cases hgap : binAvgGap own = 0
    · rw [if_pos hgap]
      by_cases hsc : rs.spaceCorrect = true
      · rw [if_pos hsc]
        exact ⟨fun hfalse => Bool.noConfusion hfalse,
          fun ⟨_, hg, _⟩ => absurd hgap hg⟩
      · rw [if_neg hsc]
        exact ⟨fun hfalse => Bool.noConfusion hfalse,
          fun ⟨_, hg, _⟩ => absurd hgap hg⟩
    · rw [if_neg hgap]
      by_cases hacc : listMin (own.map fun t0 => |t0 - rs.timestamp|) ≤
          (1/5) * binAvgGap own ∧ rs.spaceCorrect = true
      · rw [if_pos hacc]
        exact ⟨fun hfalse => Bool.noConfusion hfalse,
          fun ⟨_, _, haf⟩ => Bool.noConfusion haf⟩
      · rw [if_neg hacc]
        exact ⟨fun _ => ⟨⟨rs, rfl⟩, hgap, rfl⟩, fun _ => rfl⟩

/-- Witness for the amended C7: own history `[0, 10]` against a reference
whose only shot is not space-correct — the shot is rejected in the
nonzero-gap branch and a diagnostic is printed. -/
theorem diag_iff_distance_branch_reject_witness :
    (binShot [(0 : ℚ), 10] ⟨[⟨0, false⟩], 0, 0⟩
        (binAvgGap [(0 : ℚ), 10]) 0).diag = true := by
  have hgap : binAvgGap [(0 : ℚ), 10] = 10 := by norm_num [binAvgGap]
  have haccf : (binShot [(0 : ℚ), 10] ⟨[⟨0, false⟩], 0, 0⟩
      (binAvgGap [(0 : ℚ), 10]) 0).accepted = false := by
    rw [binShot_some [(0 : ℚ), 10] ⟨[⟨0, false⟩], 0, 0⟩ _ 0 ⟨0, false⟩ rfl, hgap]
    norm_num
  have h := diag_iff_distance_branch_reject [(0 : ℚ), 10] ⟨[⟨0, false⟩], 0, 0⟩ 0
    (by decide) _
    (binResults_get? [(0 : ℚ), 10] ⟨[⟨0, false⟩], 0, 0⟩ 0 (by decide))
  exact h.mpr ⟨⟨⟨0, false⟩, rfl⟩, by rw [hgap]; norm_num, haccf⟩

/-- C3.  The multi-sample neighbor-checked matcher accepts a shot with a
reference counterpart exactly when all of the following hold: the reference
shot is space-correct; the left-neighbor reference spacing check passes
whenever `0 < s`; the right-neighbor check passes whenever
`s < refCount - 1`; and the minimum distance from the shot's own sample
array to the reference time is within `0.3 * refAvgGap`.  In particular a
shot whose left-neighbor gap deviates too much is rejected even when its
own sample distance is in tolerance.  Accepted shots match at the argmin
over the sample array; rejected shots get `-1`. -/
theorem neighbor_check_spec (rpTimes : List (List ℚ)) (ref : RefState) (s : ℕ)
    (rs : RefShot) (hs : s < rpTimes.length) (href : ref.shots.get? s = some rs) :
    (rpResults rpTimes ref).get? s = some (rpShot rpTimes ref s) ∧
    ((rpShot rpTimes ref s).accepted = true ↔
      (rs.spaceCorrect = true ∧
       (0 < s → |rs.timestamp - timeAt ref (s - 1) - ref.avgTimeGap| ≤
          (3/10) * ref.avgTimeGap) ∧
       (s < ref.shots.length - 1 →
          |timeAt ref (s + 1) - rs.timestamp - ref.avgTimeGap| ≤
            (3/10) * ref.avgTimeGap) ∧
       listMin (((rpTimes.get? s).getD []).map fun x => |x - rs.timestamp|) ≤
          (3/10) * ref.avgTimeGap)) ∧
    ((rpShot rpTimes ref s).accepted = true →
      (rpShot rpTimes ref s).matchIndex =
        (listArgmin (((rpTimes.get? s).getD []).map fun x => |x - rs.timestamp|) : Int)) ∧
    ((rpShot rpTimes ref s).accepted = false →
      (rpShot rpTimes ref s).matchIndex = -1) := by
  have hstot : s < ref.shots.length := (List.get?_eq_some.mp href).1
  refine ⟨rpResults_get? rpTimes ref s hs, ?_⟩
  rw [rpShot_some rpTimes ref s rs href]
  rw [show (-rs.timestamp) + timeAt ref (s + 1) - ref.avgTimeGap =
      timeAt ref (s + 1) - rs.timestamp - ref.avgTimeGap from by ring]
  generalize hd1 : |rs.timestamp - timeAt ref (s - 1) - ref.avgTimeGap| = d1
  generalize hd2 : |timeAt ref (s + 1) - rs.timestamp - ref.avgTimeGap| = d2
  generalize ham :
    (listArgmin (((rpTimes.get? s).getD []).map fun x => |x - rs.timestamp|) : Int) = am
  generalize hm : listMin (((rpTimes.get? s).getD []).map fun x => |x - rs.timestamp|) = m
  generalize htol : (3/10 : ℚ) * ref.avgTimeGap = tol
  set S1 : Bool :=
    if 0 < s ∧ s < ref.shots.length then (if d1 > tol then false else true) else true
    with hS1
  set S2 : Bool :=
    if s < ref.shots.length - 1 then (if d2 > tol then false else S1) else S1 with hS2
  have hS1iff : S1 = true ↔ (0 < s → d1 ≤ tol) := by
    rw [hS1, flag_iff]
    constructor
    · rintro ⟨h1, -⟩ hpos
      exact h1 ⟨hpos, hstot⟩
    · intro h1
      exact ⟨fun hc => h1 hc.1, rfl⟩
  have hS2iff : S2 = true ↔ ((s < ref.shots.length - 1 → d2 ≤ tol) ∧ S1 = true) := by
    rw [hS2]
    exact flag_iff _ _ _ _
  by_cases hsp : (rs.spaceCorrect && S2) = true
  · rw [if_pos hsp]
    obtain ⟨hspc, hs2⟩ : rs.spaceCorrect = true ∧ S2 = true := by simpa using hsp
    have h2 := hS2iff.mp hs2
    have h1 := hS1iff.mp h2.2
    by_cases hm2 : m ≤ tol
    · rw [if_pos hm2]
      exact ⟨⟨fun _ => ⟨hspc, h1, h2.1, hm2⟩, fun _ => rfl⟩, fun _ => rfl,
        fun hf => Bool.noConfusion hf⟩
    · rw [if_neg hm2]
      exact ⟨⟨fun hf => Bool.noConfusion hf, fun hR => absurd hR.2.2.2 hm2⟩,
        fun hf => Bool.noConfusion hf, fun _ => rfl⟩
  · rw [if_neg hsp]
    refine ⟨⟨fun hf => Bool.noConfusion hf, fun hR => ?_⟩,
      fun hf => Bool.noConfusion hf, fun _ => rfl⟩
    have hs2 := hS2iff.mpr ⟨hR.2.2.1, hS1iff.mpr hR.2.1⟩
    exact absurd (by simp [hR.1, hs2] : (rs.spaceCorrect && S2) = true) hsp

/-- Witness for C3: shot 1 of a two-shot multi-sample stream is rejected
because the left-neighbor reference gap (100) deviates from the average gap
(55) by more than 30%, although its own sample sits exactly on the
reference time; and a trivially in-tolerance single-shot stream is
accepted. -/
theorem neighbor_check_spec_witness :
    (rpShot [[(0 : ℚ)], [(100 : ℚ)]]
        ⟨[⟨0, true⟩, ⟨100, true⟩, ⟨110, true⟩], 0, 55⟩ 1).matchIndex = -1 ∧
    (rpShot [[(0 : ℚ)]] ⟨[⟨0, true⟩], 0, 0⟩ 0).accepted = true := by
  have h := neighbor_check_spec [[(0 : ℚ)], [(100 : ℚ)]]
    ⟨[⟨0, true⟩, ⟨100, true⟩, ⟨110, true⟩], 0, 55⟩ 1 ⟨100, true⟩ (by decide) rfl
  have hacc : (rpShot [[(0 : ℚ)], [(100 : ℚ)]]
      ⟨[⟨0, true⟩, ⟨100, true⟩, ⟨110, true⟩], 0, 55⟩ 1).accepted = false := by
    cases hb : (rpShot [[(0 : ℚ)], [(100 : ℚ)]]
        ⟨[⟨0, true⟩, ⟨100, true⟩, ⟨110, true⟩], 0, 55⟩ 1).accepted with
    | false => rfl
    | true =>
      exfalso
      have hR := h.2.1.mp hb
      have hd1 := hR.2.1 (by norm_num)
      norm_num [timeAt] at hd1
  have h0 := neighbor_check_spec [[(0 : ℚ)]] ⟨[⟨0, true⟩], 0, 0⟩ 0 ⟨0, true⟩
    (by decide) rfl
  refine ⟨h.2.2.2 hacc, h0.2.1.mpr ⟨rfl, ?_, ?_, ?_⟩⟩
  · intro hh
    exact absurd hh (by norm_num)
  · intro hh
    exact absurd hh (by norm_num)
  · norm_num [listMin]

theorem rpShot_matchIndex (rpTimes : List (List ℚ)) (ref : RefState) (s : ℕ)
    (rs : RefShot) (href : ref.shots.get? s = some rs) :
    ((rpShot rpTimes ref s).accepted = true →
      (rpShot rpTimes ref s).matchIndex =
        (listArgmin (((rpTimes.get? s).getD []).map fun x => |x - rs.timestamp|) : Int)) ∧
    ((rpShot rpTimes ref s).accepted = false →
      (rpShot rpTimes ref s).matchIndex = -1) := by
  rw [rpShot_some rpTimes ref s rs href]
  split_ifs <;> simp

/-- C10.  After a recompute, a shot's match index is non-negative exactly
when the shot is accepted: an accepted shot's index is in range of the
matching domain (the own history for the single-timestamp matcher, the
shot's sample array for the multi-sample variant, provided sample arrays
are nonempty as any loaded file guarantees), and a rejected shot's index is
exactly `-1`. -/
theorem match_index_invariant (own : List ℚ) (rpTimes : List (List ℚ)) (ref : RefState)
    (hne : ∀ l ∈ rpTimes, l ≠ []) :
    (∀ s r, (binResults own ref).get? s = some r →
      (r.accepted = true → 0 ≤ r.matchIndex ∧ r.matchIndex < (own.length : Int)) ∧
      (r.accepted = false → r.matchIndex = -1)) ∧
    (∀ s r, (rpResults rpTimes ref).get? s = some r →
      (r.accepted = true →
        0 ≤ r.matchIndex ∧ r.matchIndex < (((rpTimes.get? s).getD []).length : Int)) ∧
      (r.accepted = false → r.matchIndex = -1)) := by
  constructor
  · intro s r hr
    have hlen : s < own.length := by
      have h1 := (List.get?_eq_some.mp hr).1
      rwa [binResults_length] at h1
    rw [binResults_get? own ref s hlen] at hr
    have hr' := (Option.some.inj hr).symm
    subst hr'
    have hown : own ≠ [] := fun h0 => by rw [h0] at hlen; simp at hlen
    cases hcase : ref.shots.get? s with
    | none =>
      rw [binShot_none own ref _ s hcase]
      exact ⟨fun hf => Bool.noConfusion hf, fun _ => rfl⟩
    | some rs =>
      rw [binShot_some own ref _ s rs hcase]
      by_cases hgap : binAvgGap own = 0
      · rw [if_pos hgap]
        by_cases hsc : rs.spaceCorrect = true
        · rw [if_pos hsc]
          exact ⟨fun _ => ⟨Int.natCast_nonneg s, by dsimp only; exact_mod_cast hlen⟩,
            fun hf => Bool.noConfusion hf⟩
        · rw [if_neg hsc]
          exact ⟨fun hf => Bool.noConfusion hf, fun _ => rfl⟩
      · rw [if_neg hgap]
        by_cases hacc : listMin (own.map fun t0 => |t0 - rs.timestamp|) ≤
            (1/5) * binAvgGap own ∧ rs.spaceCorrect = true
        · rw [if_pos hacc]
          refine ⟨fun _ => ⟨Int.natCast_nonneg _, ?_⟩, fun hf => Bool.noConfusion hf⟩
          have hdne : (own.map fun t0 => |t0 - rs.timestamp|) ≠ [] := by simpa using hown
          have halt := listArgmin_lt _ hdne
          rw [List.length_map] at halt
          dsimp only
          exact_mod_cast halt
        · rw [if_neg hacc]
          exact ⟨fun hf => Bool.noConfusion hf, fun _ => rfl⟩
  · intro s r hr
    have hlen : s < rpTimes.length := by
      have h1 := (List.get?_eq_some.mp hr).1
      rwa [rpResults_length] at h1
    rw [rpResults_get? rpTimes ref s hlen] at hr
    have hr' := (Option.some.inj hr).symm
    subst hr'
    cases hcase : ref.shots.get? s with
    | none =>
      rw [rpShot_none rpTimes ref s hcase]
      exact ⟨fun hf => Bool.noConfusion hf, fun _ => rfl⟩
    | some rs =>
      have hmi := rpShot_matchIndex rpTimes ref s rs hcase
      refine ⟨fun hacc => ?_, hmi.2⟩
      rw [hmi.1 hacc]
      obtain ⟨l, hl⟩ : ∃ l, rpTimes.get? s = some l := ⟨_, List.get?_eq_get hlen⟩
      have hlne : l ≠ [] := hne l (List.get?_mem hl)
      rw [hl]
      simp only [Option.getD_some]
      have hdne : (l.map fun x => |x - rs.timestamp|) ≠ [] := by simpa using hlne
      have halt := listArgmin_lt _ hdne
      rw [List.length_map] at halt
      exact ⟨Int.natCast_nonneg _, by exact_mod_cast halt⟩

/-- Witness for C10: the accepted shot 0 of the stream `[0, 10]` has a
match index that is non-negative and within range of the own history. -/
theorem match_index_invariant_witness :
    0 ≤ (binShot [(0 : ℚ), 10] ⟨[⟨0, true⟩, ⟨10, true⟩], 0, 10⟩
        (binAvgGap [(0 : ℚ), 10]) 0).matchIndex ∧
    (binShot [(0 : ℚ), 10] ⟨[⟨0, true⟩, ⟨10, true⟩], 0, 10⟩
        (binAvgGap [(0 : ℚ), 10]) 0).matchIndex < (([(0 : ℚ), 10].length : ℕ) : Int) := by
  have hgap : binAvgGap [(0 : ℚ), 10] = 10 := by norm_num [binAvgGap]
  have hacc : (binShot [(0 : ℚ), 10] ⟨[⟨0, true⟩, ⟨10, true⟩], 0, 10⟩
      (binAvgGap [(0 : ℚ), 10]) 0).accepted = true := by
    rw [binShot_some [(0 : ℚ), 10] ⟨[⟨0, true⟩, ⟨10, true⟩], 0, 10⟩ _ 0 ⟨0, true⟩ rfl,
      hgap]
    norm_num [listMin, min_def]
  have h := match_index_invariant [(0 : ℚ), 10] [[(0 : ℚ)]]
    ⟨[⟨0, true⟩, ⟨10, true⟩], 0, 10⟩ (by simp)
  exact (h.1 0 _ (binResults_get? [(0 : ℚ), 10]
    ⟨[⟨0, true⟩, ⟨10, true⟩], 0, 10⟩ 0 (by decide))).1 hacc

end NewDaq
